import Mathlib

/-!
# Verification of the vagrant inventory plugin (`plugins/vagrant.py`)

A shallow embedding of the plugin's core logic over `List Char` (Python
strings are modelled as lists of characters), together with proofs about
the parser (`parse_inventory`, source lines 70-94), the cache-aware
orchestration (`parse`, source lines 96-128), the external-process
wrapper (source lines 65-68) and the inventory population
(`populate`, source lines 39-46).

Python's built-in string operations that the source relies on
(`str.strip`, `str.split`, `str.join`, `str.startswith`, `int`) are
modelled explicitly; each model carries a comment naming the Python
operation it embeds.
-/

namespace Vagrant

/-- Characters treated as whitespace by Python's `str.strip()` (ASCII range). -/
def isPySpace (c : Char) : Bool :=
  c = ' ' || c = '\t' || c = '\n' || c = '\r' || c = '\x0b' || c = '\x0c'

/-- Model of Python `s.strip()`: drop whitespace from both ends. -/
def pyStrip (l : List Char) : List Char :=
  (l.dropWhile isPySpace).rdropWhile isPySpace

/-- Model of Python `s.split(sep)` for a one-character separator: split at every
occurrence of `sep`, keeping empty pieces (`"".split(sep) == ['']`). -/
def pySplit (sep : Char) (l : List Char) : List (List Char) :=
  l.splitOn sep

/-- Model of Python `sep.join(pieces)` for a one-character separator. -/
def pyJoin (sep : Char) (pieces : List (List Char)) : List Char :=
  List.intercalate [sep] pieces

/-- Model of Python `s.split(' ', 1)[1]`: everything after the first space.
Only used on lines already known to contain a space (they start with a
directive such as `Host `), so the no-space case is arbitrary. -/
def afterFirstSpace : List Char → List Char
  | [] => []
  | ' ' :: rest => rest
  | _ :: rest => afterFirstSpace rest

/-- The value of an ASCII digit. -/
def digitVal (c : Char) : Nat := c.toNat - '0'.toNat

/-- Digits of a Python integer literal after the first digit: plain digits,
with single underscores allowed between digits (as accepted by `int`). -/
def digitsCore (acc : Nat) : List Char → Option Nat
  | [] => some acc
  | '_' :: rest =>
    match rest with
    | [] => none
    | c :: rest2 => if c.isDigit then digitsCore (acc * 10 + digitVal c) rest2 else none
  | c :: rest => if c.isDigit then digitsCore (acc * 10 + digitVal c) rest else none

/-- A nonempty run of digits (underscore-separated), or `none`. -/
def digitsVal? : List Char → Option Nat
  | [] => none
  | c :: rest => if c.isDigit then digitsCore (digitVal c) rest else none

/-- Model of Python `int(s)` (base 10, ASCII): strip whitespace, optional
sign, then digits with optional single underscores between digits.
Returns `none` where `int` raises `ValueError`. -/
def pyInt? (l : List Char) : Option Int :=
  match pyStrip l with
  | '+' :: rest => (digitsVal? rest).map Int.ofNat
  | '-' :: rest => (digitsVal? rest).map (fun n => -(n : Int))
  | rest => (digitsVal? rest).map Int.ofNat

/-- Source line 73: `[e.strip() for e in line.strip().split(' ')]`,
with the empty tokens already removed as on line 74. -/
def lineToks (l : List Char) : List (List Char) :=
  ((pySplit ' ' (pyStrip l)).map pyStrip).filter (fun t => !t.isEmpty)

/-- Source lines 73-74:
`line = [e.strip() for e in line.strip().split(' ')]` followed by
`line = ' '.join([e for e in line if e != ''])`. -/
def normalizeLine (l : List Char) : List Char :=
  pyJoin ' ' (lineToks l)

/-- The `host_info` accumulator dict of `parse_inventory`.  Only the five
keys `host`, `hostname`, `user`, `port`, `sshkey` are ever written, so the
dict is modelled as a record of five optional fields. -/
structure HostInfo where
  host : Option (List Char)
  hostname : Option (List Char)
  user : Option (List Char)
  port : Option Int
  sshkey : Option (List Char)
deriving DecidableEq

/-- The empty dict `{}`. -/
def HostInfo.empty : HostInfo := ⟨none, none, none, none, none⟩

/-- Model of Python `len(host_info)`: the number of keys present. -/
def HostInfo.size (hi : HostInfo) : Nat :=
  (if hi.host.isSome then 1 else 0) + (if hi.hostname.isSome then 1 else 0) +
    (if hi.user.isSome then 1 else 0) + (if hi.port.isSome then 1 else 0) +
    (if hi.sshkey.isSome then 1 else 0)

/-- The five directive markers tested with `line.startswith(...)` on
source lines 77, 82, 84, 86, 88. -/
def hostDir : List Char := "Host ".toList

/-- The `HostName ` marker (source line 82). -/
def hostnameDir : List Char := "HostName ".toList

/-- The `User ` marker (source line 84). -/
def userDir : List Char := "User ".toList

/-- The `Port ` marker (source line 86). -/
def portDir : List Char := "Port ".toList

/-- The `IdentityFile ` marker (source line 88). -/
def identityFileDir : List Char := "IdentityFile ".toList

/-- All five directive markers together. -/
def directives : List (List Char) :=
  [hostDir, hostnameDir, userDir, portDir, identityFileDir]

/-- Source lines 77-81: on a `Host ` line, flush a nonempty accumulator to
`results` and start a fresh accumulator holding only `host`.  `line` is the
normalized line. -/
def hostStep (results : List HostInfo) (hi : HostInfo) (line : List Char) :
    List HostInfo × HostInfo :=
  if hostDir.isPrefixOf line then
    ((if hi.size > 0 then results ++ [hi] else results),
      { HostInfo.empty with host := some (afterFirstSpace line) })
  else (results, hi)

/-- Source lines 82-83: `HostName ` sets the `hostname` key. -/
def hostnameStep (hi : HostInfo) (line : List Char) : HostInfo :=
  if hostnameDir.isPrefixOf line then
    { hi with hostname := some (afterFirstSpace line) }
  else hi

/-- Source lines 84-85: `User ` sets the `user` key. -/
def userStep (hi : HostInfo) (line : List Char) : HostInfo :=
  if userDir.isPrefixOf line then
    { hi with user := some (afterFirstSpace line) }
  else hi

/-- Source lines 86-87: `Port ` sets the `port` key via `int(...)`; a value
`int` rejects raises `ValueError`, modelled as `Except.error` carrying the
offending text. -/
def portStep (hi : HostInfo) (line : List Char) : Except (List Char) HostInfo :=
  if portDir.isPrefixOf line then
    match pyInt? (afterFirstSpace line) with
    | some n => .ok { hi with port := some n }
    | none => .error (afterFirstSpace line)
  else .ok hi

/-- Source lines 88-89: `IdentityFile ` sets the `sshkey` key. -/
def sshkeyStep (hi : HostInfo) (line : List Char) : HostInfo :=
  if identityFileDir.isPrefixOf line then
    { hi with sshkey := some (afterFirstSpace line) }
  else hi

/-- One iteration of the `for line in out.split('\n')` loop body
(source lines 72-89): normalize the raw line, skip if empty, then apply the
five independent directive checks in source order. -/
def processLine (results : List HostInfo) (hi : HostInfo) (raw : List Char) :
    Except (List Char) (List HostInfo × HostInfo) :=
  let line := normalizeLine raw
  if line.isEmpty then .ok (results, hi)
  else
    let s := hostStep results hi line
    match portStep (userStep (hostnameStep s.2 line) line) line with
    | .ok hi2 => .ok (s.1, sshkeyStep hi2 line)
    | .error e => .error e

/-- The whole loop of source lines 72-89, over a list of raw lines. -/
def runLines : List (List Char) → List HostInfo → HostInfo →
    Except (List Char) (List HostInfo × HostInfo)
  | [], results, hi => .ok (results, hi)
  | raw :: rest, results, hi =>
    match processLine results hi raw with
    | .ok (r, h) => runLines rest r h
    | .error e => .error e

/-- Source lines 91-93: after the loop, flush a nonempty accumulator. -/
def finishParse : List HostInfo × HostInfo → List HostInfo
  | (results, hi) => if hi.size > 0 then results ++ [hi] else results

/-- Run the loop from a given state and apply the final flush. -/
def runParse (lines : List (List Char)) (results : List HostInfo) (hi : HostInfo) :
    Except (List Char) (List HostInfo) :=
  match runLines lines results hi with
  | .ok st => .ok (finishParse st)
  | .error e => .error e

/-- Source lines 69-94 of `parse_inventory`: the text-to-records parser,
from the decoded stdout text onward (the path resolution and process
invocation that precede it are modelled separately).  Errors are the
`ValueError` raised by `int` on a bad `Port` value. -/
def parse_inventory (out : List Char) : Except (List Char) (List HostInfo) :=
  runParse (pySplit '\n' out) [] HostInfo.empty

/-- `True` on `Except.error`, used to state that a computation failed. -/
def exceptIsError {ε α : Type} : Except ε α → Bool
  | .error _ => true
  | .ok _ => false

instance {ε α : Type} [DecidableEq ε] [DecidableEq α] : DecidableEq (Except ε α) := fun a b =>
  match a, b with
  | .ok x, .ok y =>
    match decEq x y with
    | isTrue h => isTrue (h ▸ rfl)
    | isFalse h => isFalse (fun hh => h (Except.ok.inj hh))
  | .ok _, .error _ => isFalse (fun hh => Except.noConfusion hh)
  | .error _, .ok _ => isFalse (fun hh => Except.noConfusion hh)
  | .error x, .error y =>
    match decEq x y with
    | isTrue h => isTrue (h ▸ rfl)
    | isFalse h => isFalse (fun hh => h (Except.error.inj hh))

/-! ## The external-process wrapper (source lines 65-68)

`run(['vagrant', 'ssh-config'], check=True, capture_output=True, cwd=vf_path)`
either returns a completed process (exit status 0), raises
`CalledProcessError` (non-zero exit, because of `check=True`), or raises an
OS-level exception when the process cannot be launched.  The outcome of the
process layer is the input of the wrapper. -/

/-- Outcome of the `subprocess.run` call.  For the two failure
constructors the payload is `to_native(e)`, the description of the raised
process-layer exception. -/
inductive RunOutcome where
  | success (stdout : List Char)
  | nonZeroExit (excMsg : List Char)
  | launchFailure (excMsg : List Char)
deriving DecidableEq

/-- The literal prefix of the `AnsibleError` message on source line 68:
`'"vagrant ssh-config" failed with: %s'`. -/
def execHeader : List Char := "\"vagrant ssh-config\" failed with: ".toList

/-- Source lines 65-68: the `try`/`except Exception` block.  Every failure
of the process layer is wrapped into a single `AnsibleError` (the `.error`
payload) whose message carries the underlying cause's description; the
return type shows that no process-layer exception escapes. -/
def invoke (r : RunOutcome) : Except (List Char) (List Char) :=
  match r with
  | .success out => .ok out
  | .nonZeroExit msg => .error (execHeader ++ msg)
  | .launchFailure msg => .error (execHeader ++ msg)

/-! ## Inventory population (`populate`, source lines 39-46)

The inventory sink is an external collaborator; its observable effect is
the sequence of `add_host` / `set_variable` calls.  A missing dict key
raises `KeyError`, which aborts population; the model returns the calls
made before the failure together with the missing key. -/

/-- A value passed to `set_variable`. -/
inductive VarValue where
  | str (s : List Char)
  | int (n : Int)
  | bool (b : Bool)
deriving DecidableEq

/-- One call on the inventory sink. -/
inductive InvOp where
  | addHost (h : List Char)
  | setVariable (host : List Char) (varName : List Char) (value : VarValue)
deriving DecidableEq

/-- Source lines 41-46 for one record: the dict lookups happen in source
order (`host`, then `hostname`, `user`, `port`, `sshkey`); the first
missing key raises `KeyError` (second component) after the calls already
made (first component). -/
def populateRecord (hi : HostInfo) : List InvOp × Option (List Char) :=
  match hi.host with
  | none => ([], some "host".toList)
  | some h =>
    match hi.hostname with
    | none => ([InvOp.addHost h], some "hostname".toList)
    | some hn =>
      match hi.user with
      | none =>
        ([InvOp.addHost h, InvOp.setVariable h "ansible_host".toList (VarValue.str hn)],
          some "user".toList)
      | some u =>
        match hi.port with
        | none =>
          ([InvOp.addHost h, InvOp.setVariable h "ansible_host".toList (VarValue.str hn),
            InvOp.setVariable h "ansible_user".toList (VarValue.str u)], some "port".toList)
        | some p =>
          match hi.sshkey with
          | none =>
            ([InvOp.addHost h, InvOp.setVariable h "ansible_host".toList (VarValue.str hn),
              InvOp.setVariable h "ansible_user".toList (VarValue.str u),
              InvOp.setVariable h "ansible_port".toList (VarValue.int p),
              InvOp.setVariable h "ansible_host_key_checking".toList (VarValue.bool false)],
              some "sshkey".toList)
          | some k =>
            ([InvOp.addHost h, InvOp.setVariable h "ansible_host".toList (VarValue.str hn),
              InvOp.setVariable h "ansible_user".toList (VarValue.str u),
              InvOp.setVariable h "ansible_port".toList (VarValue.int p),
              InvOp.setVariable h "ansible_host_key_checking".toList (VarValue.bool false),
              InvOp.setVariable h "ansible_ssh_private_key_file".toList (VarValue.str k)],
              none)

/-- Source lines 39-46: `for host_info in results`, stopping at the first
`KeyError`. -/
def populate : List HostInfo → List InvOp × Option (List Char)
  | [] => ([], none)
  | hi :: rest =>
    match populateRecord hi with
    | (ops, some e) => (ops, some e)
    | (ops, none) =>
      match populate rest with
      | (ops2, r) => (ops ++ ops2, r)

/-! ## The cache-aware orchestration (`parse`, source lines 96-128)

The framework collaborators are abstracted at their interfaces: the cache
entry for the derived key is an `Option` (`none` models the `KeyError` of
a missing key), and the whole fresh computation
(locator → external-process invoker → parser, i.e. `self.parse_inventory(path)`)
is a value of type `Except ε α`.  The output records how many times the
fresh computation ran (the external process is invoked exactly once per
fresh computation, so `freshCalls = 0` means the invoker never ran),
whether the cache was written, and the cache entry after the call. -/

/-- Observable outcome of one `parse` call. `results` is the record
sequence handed to `self.populate` on source line 128. -/
structure ResolveOut (α : Type) where
  results : α
  freshCalls : Nat
  cacheWritten : Bool
  cacheAfter : Option α
deriving DecidableEq

/-- Source lines 96-128.  `userCacheSetting` models
`self.get_option('cache')` (line 104) and `cacheFlag` the `cache`
argument (line 96); `cached` is the cache entry under `cache_key`.

The condition of the recompute branch is
`not attempt_to_read_cache or cache_needs_update` (line 119) where
`attempt_to_read_cache = user_cache_setting and cache` (line 107) and
`cache_needs_update` is `user_cache_setting and not cache` (line 109),
escalated to `True` when the cache read raised `KeyError` (lines 112-118).
In the remaining branch the cache read necessarily succeeded, so `results`
is the cached value; the `none` case there is unreachable (the escalation
would have sent `none` into the recompute branch) and is closed by
`False.elim`. -/
def resolve {ε α : Type} (userCacheSetting cacheFlag : Bool) (cached : Option α)
    (fresh : Except ε α) : Except ε (ResolveOut α) :=
  if hrec : (!(userCacheSetting && cacheFlag)
      || ((userCacheSetting && !cacheFlag)
        || ((userCacheSetting && cacheFlag) && cached.isNone))) = true then
    match fresh with
    | .ok v =>
      .ok { results := v, freshCalls := 1,
            cacheWritten := ((userCacheSetting && !cacheFlag)
              || ((userCacheSetting && cacheFlag) && cached.isNone)),
            cacheAfter :=
              if ((userCacheSetting && !cacheFlag)
                  || ((userCacheSetting && cacheFlag) && cached.isNone)) then some v
              else cached }
    | .error e => .error e
  else
    match cached with
    | some v =>
      -- here `cache_needs_update` is false (otherwise the branch above ran),
      -- so the cache is not written (lines 123-125 skip) and is unchanged
      .ok { results := v, freshCalls := 0, cacheWritten := false, cacheAfter := cached }
    | none => False.elim (hrec (by cases userCacheSetting <;> cases cacheFlag <;> rfl))

/-- Source line 128 composed after lines 96-127: the records of a
successful resolution are handed to `populate` (modelled below). -/
def resolveAndPopulate (userCacheSetting cacheFlag : Bool)
    (cached : Option (List HostInfo)) (fresh : Except (List Char) (List HostInfo)) :
    Except (List Char) (ResolveOut (List HostInfo) × (List InvOp × Option (List Char))) :=
  match resolve userCacheSetting cacheFlag cached fresh with
  | .ok out => .ok (out, populate out.results)
  | .error e => .error e

/-! ## Well-formed host blocks

Used to state the claim about texts made of `N` well-formed `Host`
blocks: each block is a `Host <name>` line followed by field lines.  The
definitions below build the text of such blocks; well-formedness
constrains names and values to single whitespace-free tokens (and `Port`
values to text accepted by `int`). -/

/-- A field line of a host block. -/
inductive Field where
  | hostname (v : List Char)
  | user (v : List Char)
  | port (v : List Char)
  | identityFile (v : List Char)
deriving DecidableEq

/-- One host block: a `Host <name>` line followed by field lines. -/
structure Block where
  name : List Char
  fields : List Field
deriving DecidableEq

/-- The text of a field line. -/
def fieldLine : Field → List Char
  | .hostname v => hostnameDir ++ v
  | .user v => userDir ++ v
  | .port v => portDir ++ v
  | .identityFile v => identityFileDir ++ v

/-- The lines of one block. -/
def blockLines (b : Block) : List (List Char) :=
  (hostDir ++ b.name) :: b.fields.map fieldLine

/-- The lines of a sequence of blocks, in order. -/
def linesOfBlocks : List Block → List (List Char)
  | [] => []
  | b :: bs => blockLines b ++ linesOfBlocks bs

/-- The text of a sequence of blocks. -/
def renderBlocks (bs : List Block) : List Char :=
  pyJoin '\n' (linesOfBlocks bs)

/-- A nonempty whitespace-free token. -/
def cleanTok (v : List Char) : Prop :=
  v ≠ [] ∧ ∀ c ∈ v, isPySpace c = false

instance (v : List Char) : Decidable (cleanTok v) := by
  unfold cleanTok; infer_instance

/-- Well-formedness of one field: the value is a clean token, and a
`Port` value is text accepted by `int`. -/
def wfField : Field → Prop
  | .hostname v => cleanTok v
  | .user v => cleanTok v
  | .port v => cleanTok v ∧ (pyInt? v).isSome = true
  | .identityFile v => cleanTok v

instance (f : Field) : Decidable (wfField f) := by
  cases f <;> (unfold wfField; infer_instance)

/-- Well-formedness of one block. -/
def wfBlock (b : Block) : Prop :=
  cleanTok b.name ∧ ∀ f ∈ b.fields, wfField f

instance (b : Block) : Decidable (wfBlock b) := by
  unfold wfBlock; infer_instance

/-- The effect of one field line on the accumulator (last write wins,
`Port` goes through `int`). -/
def applyField (hi : HostInfo) : Field → HostInfo
  | .hostname v => { hi with hostname := some v }
  | .user v => { hi with user := some v }
  | .port v => { hi with port := pyInt? v }
  | .identityFile v => { hi with sshkey := some v }

/-- The record a well-formed block parses to. -/
def recOf (b : Block) : HostInfo :=
  b.fields.foldl applyField { HostInfo.empty with host := some b.name }

/-- Two concrete well-formed blocks, shaped like `vagrant ssh-config`
output with two machines. -/
def exampleBlocks : List Block :=
  [⟨"box1".toList, [Field.hostname "127.0.0.1".toList, Field.user "vagrant".toList,
    Field.port "2222".toList, Field.identityFile "/home/u/k1".toList]⟩,
   ⟨"box2".toList, [Field.port "2200".toList]⟩]

/-! ## Whitespace renormalization (for the whitespace-robustness claim) -/

/-- The input text with every line's tokens re-separated by single
spaces: each line is replaced by its normalized form. -/
def renormText (text : List Char) : List Char :=
  pyJoin '\n' ((pySplit '\n' text).map normalizeLine)

/-! ## Lemmas: the string primitives -/

theorem mem_splitOnP_not {q : Char → Bool} :
    ∀ (l : List Char), ∀ p ∈ l.splitOnP q, ∀ c ∈ p, q c = false := by
  intro l
  induction l with
  | nil =>
    intro p hp c hc
    rw [List.splitOnP_nil] at hp
    simp only [List.mem_singleton] at hp
    subst hp
    cases hc
  | cons a as ih =>
    intro p hp c hc
    rw [List.splitOnP_cons] at hp
    by_cases ha : q a
    · rw [if_pos ha] at hp
      rcases List.mem_cons.mp hp with h | h
      · subst h; cases hc
      · exact ih p h c hc
    · rw [if_neg ha] at hp
      rcases hs : as.splitOnP q with _ | ⟨hd, tl⟩
      · exact absurd hs (List.splitOnP_ne_nil q as)
      · rw [hs] at hp
        simp only [List.modifyHead] at hp
        rcases List.mem_cons.mp hp with h | h
        · subst h
          rcases List.mem_cons.mp hc with h' | h'
          · subst h'; exact Bool.eq_false_iff.mpr ha
          · exact ih hd (hs ▸ List.mem_cons_self hd tl) c h'
        · exact ih p (hs ▸ List.mem_cons_of_mem hd h) c hc

theorem sep_not_mem_of_mem_pySplit {sep : Char} {l p : List Char}
    (hp : p ∈ pySplit sep l) : sep ∉ p := by
  intro hmem
  have := mem_splitOnP_not l p hp sep hmem
  simp at this

theorem mem_of_mem_splitOnP {q : Char → Bool} :
    ∀ (l : List Char), ∀ p ∈ l.splitOnP q, ∀ c ∈ p, c ∈ l := by
  intro l
  induction l with
  | nil =>
    intro p hp c hc
    rw [List.splitOnP_nil] at hp
    simp only [List.mem_singleton] at hp
    subst hp
    cases hc
  | cons a as ih =>
    intro p hp c hc
    rw [List.splitOnP_cons] at hp
    by_cases ha : q a
    · rw [if_pos ha] at hp
      rcases List.mem_cons.mp hp with h | h
      · subst h; cases hc
      · exact List.mem_cons_of_mem a (ih p h c hc)
    · rw [if_neg ha] at hp
      rcases hs : as.splitOnP q with _ | ⟨hd, tl⟩
      · exact absurd hs (List.splitOnP_ne_nil q as)
      · rw [hs] at hp
        simp only [List.modifyHead] at hp
        rcases List.mem_cons.mp hp with h | h
        · subst h
          rcases List.mem_cons.mp hc with h' | h'
          · rw [h']; exact List.mem_cons_self a as
          · exact List.mem_cons_of_mem a (ih hd (hs ▸ List.mem_cons_self hd tl) c h')
        · exact List.mem_cons_of_mem a (ih p (hs ▸ List.mem_cons_of_mem hd h) c hc)

theorem mem_of_mem_pySplit {sep : Char} {l p : List Char}
    (hp : p ∈ pySplit sep l) {c : Char} (hc : c ∈ p) : c ∈ l :=
  mem_of_mem_splitOnP l p hp c hc

theorem mem_of_mem_pyStrip {l : List Char} {c : Char} (hc : c ∈ pyStrip l) : c ∈ l := by
  unfold pyStrip at hc
  have h1 : c ∈ l.dropWhile isPySpace :=
    (List.rdropWhile_prefix isPySpace (l.dropWhile isPySpace)).sublist.subset hc
  have h2 : l.dropWhile isPySpace <:+ l := List.dropWhile_suffix isPySpace
  exact h2.sublist.subset h1

theorem pyStrip_nil : pyStrip [] = [] := rfl

theorem dropWhile_eq_self_of_pyStrip_eq_self {x : List Char} (hx : pyStrip x = x) :
    x.dropWhile isPySpace = x := by
  have h1 : (pyStrip x).length ≤ (x.dropWhile isPySpace).length :=
    (List.rdropWhile_prefix isPySpace (x.dropWhile isPySpace)).length_le
  rw [hx] at h1
  have h2 : x.dropWhile isPySpace <:+ x := List.dropWhile_suffix isPySpace
  exact h2.sublist.eq_of_length (Nat.le_antisymm h2.length_le h1)

theorem rdropWhile_eq_self_of_pyStrip_eq_self {x : List Char} (hx : pyStrip x = x) :
    x.rdropWhile isPySpace = x := by
  have hd := dropWhile_eq_self_of_pyStrip_eq_self hx
  calc x.rdropWhile isPySpace = (x.dropWhile isPySpace).rdropWhile isPySpace := by rw [hd]
    _ = x := hx

theorem pyStrip_eq_self_of {x : List Char}
    (h1 : x.dropWhile isPySpace = x) (h2 : x.rdropWhile isPySpace = x) :
    pyStrip x = x := by
  unfold pyStrip
  rw [h1, h2]

theorem pyStrip_idem (l : List Char) : pyStrip (pyStrip l) = pyStrip l := by
  apply pyStrip_eq_self_of
  · rw [List.dropWhile_eq_self_iff]
    intro hl
    have hpre := List.rdropWhile_prefix isPySpace (l.dropWhile isPySpace)
    have hlen : 0 < (l.dropWhile isPySpace).length := lt_of_lt_of_le hl hpre.length_le
    have hget := hpre.getElem hl
    have hfix := List.dropWhile_get_zero_not isPySpace l hlen
    simp only [List.get_eq_getElem] at hfix ⊢
    rw [show (pyStrip l)[0] = (l.dropWhile isPySpace)[0] from hget]
    exact hfix
  · exact List.rdropWhile_idempotent isPySpace (l.dropWhile isPySpace)

theorem pyStrip_fixed_head {x : List Char} (hx : pyStrip x = x) :
    ∀ c rest, x = c :: rest → isPySpace c = false := by
  intro c rest hcr
  have hdw := dropWhile_eq_self_of_pyStrip_eq_self hx
  rw [hcr, List.dropWhile_cons] at hdw
  cases hc : isPySpace c
  · rfl
  · rw [hc, if_pos rfl] at hdw
    have h2 : rest.dropWhile isPySpace <:+ rest := List.dropWhile_suffix isPySpace
    have := h2.length_le
    rw [hdw] at this
    simp only [List.length_cons] at this
    omega

theorem pyStrip_fixed_last {x : List Char} (hx : pyStrip x = x) :
    ∀ c, x.getLast? = some c → isPySpace c = false := by
  intro c hc
  have hrd := rdropWhile_eq_self_of_pyStrip_eq_self hx
  have hne : x ≠ [] := by
    intro h; subst h; cases hc
  have hlast := List.rdropWhile_eq_self_iff.mp hrd hne
  have : x.getLast hne = c := by
    have := List.getLast?_eq_getLast x hne
    rw [hc] at this
    exact (Option.some.inj this).symm
  rw [this] at hlast
  simpa using hlast

theorem pyStrip_of_clean {x : List Char} (h : ∀ c ∈ x, isPySpace c = false) :
    pyStrip x = x := by
  apply pyStrip_eq_self_of
  · rw [List.dropWhile_eq_self_iff]
    intro hl
    simp only [List.get_eq_getElem]
    have : x[0] ∈ x := List.getElem_mem hl
    simp [h _ this]
  · rw [List.rdropWhile_eq_self_iff]
    intro hl
    have : x.getLast hl ∈ x := List.getLast_mem hl
    simp [h _ this]

theorem pyJoin_nil {sep : Char} : pyJoin sep [] = [] := rfl

theorem pyJoin_single {sep : Char} (t : List Char) : pyJoin sep [t] = t := by
  simp [pyJoin, List.intercalate]

theorem pyJoin_cons₂ {sep : Char} (a b : List Char) (l : List (List Char)) :
    pyJoin sep (a :: b :: l) = a ++ sep :: pyJoin sep (b :: l) := by
  simp [pyJoin, List.intercalate]

theorem pyJoin_cons_ex (sep : Char) (t : List Char) (ts : List (List Char)) :
    ∃ z, pyJoin sep (t :: ts) = t ++ z := by
  cases ts with
  | nil => exact ⟨[], by rw [pyJoin_single, List.append_nil]⟩
  | cons u us => exact ⟨sep :: pyJoin sep (u :: us), pyJoin_cons₂ t u us⟩

theorem pyJoin_ne_nil {sep : Char} {t : List Char} {ts : List (List Char)}
    (ht : t ≠ []) : pyJoin sep (t :: ts) ≠ [] := by
  obtain ⟨z, hz⟩ := pyJoin_cons_ex sep t ts
  rw [hz]
  simp [ht]

theorem mem_pyJoin {sep : Char} {c : Char} :
    ∀ {toks : List (List Char)}, c ∈ pyJoin sep toks → c = sep ∨ ∃ t ∈ toks, c ∈ t := by
  intro toks
  induction toks with
  | nil => intro hc; rw [pyJoin_nil] at hc; cases hc
  | cons t ts ih =>
    intro hc
    cases ts with
    | nil =>
      rw [pyJoin_single] at hc
      exact Or.inr ⟨t, List.mem_singleton_self t, hc⟩
    | cons u us =>
      rw [pyJoin_cons₂] at hc
      rcases List.mem_append.mp hc with h | h
      · exact Or.inr ⟨t, List.mem_cons_self t (u :: us), h⟩
      · rcases List.mem_cons.mp h with h' | h'
        · exact Or.inl h'
        · rcases ih h' with h'' | ⟨w, hw, hcw⟩
          · exact Or.inl h''
          · exact Or.inr ⟨w, List.mem_cons_of_mem t hw, hcw⟩

theorem pyJoin_getLast? {sep : Char} :
    ∀ {toks : List (List Char)}, toks ≠ [] → (∀ t ∈ toks, t ≠ []) →
      ∃ t ∈ toks, (pyJoin sep toks).getLast? = t.getLast? := by
  intro toks
  induction toks with
  | nil => intro h; exact absurd rfl h
  | cons t ts ih =>
    intro _ hne
    cases ts with
    | nil => exact ⟨t, List.mem_singleton_self t, by rw [pyJoin_single]⟩
    | cons u us =>
      obtain ⟨w, hw, heq⟩ := ih (List.cons_ne_nil u us)
        (fun x hx => hne x (List.mem_cons_of_mem t hx))
      refine ⟨w, List.mem_cons_of_mem t hw, ?_⟩
      have hX : pyJoin sep (u :: us) ≠ [] := pyJoin_ne_nil (hne u (by simp))
      rw [pyJoin_cons₂,
        List.getLast?_append_of_ne_nil t (List.cons_ne_nil sep (pyJoin sep (u :: us))),
        show sep :: pyJoin sep (u :: us) = [sep] ++ pyJoin sep (u :: us) from rfl,
        List.getLast?_append_of_ne_nil [sep] hX, heq]

theorem pyStrip_pyJoin {toks : List (List Char)} (hne : toks ≠ [])
    (h : ∀ t ∈ toks, t ≠ [] ∧ pyStrip t = t) :
    pyStrip (pyJoin ' ' toks) = pyJoin ' ' toks := by
  apply pyStrip_eq_self_of
  · cases toks with
    | nil => exact absurd rfl hne
    | cons t ts =>
      obtain ⟨ht, hts⟩ := h t (List.mem_cons_self t ts)
      obtain ⟨z, hz⟩ := pyJoin_cons_ex ' ' t ts
      cases t with
      | nil => exact absurd rfl ht
      | cons c r =>
        rw [hz, List.cons_append, List.dropWhile_cons,
          pyStrip_fixed_head hts c r rfl]
        simp
  · rw [List.rdropWhile_eq_self_iff]
    intro hl
    obtain ⟨w, hw, heq⟩ := pyJoin_getLast? hne (fun x hx => (h x hx).1)
    have hwne : w ≠ [] := (h w hw).1
    have h1 := List.getLast?_eq_getLast (pyJoin ' ' toks) hl
    have h2 := List.getLast?_eq_getLast w hwne
    rw [heq, h2] at h1
    have := pyStrip_fixed_last (h w hw).2 (w.getLast hwne) h2
    rw [← Option.some.inj h1]
    simp [this]

theorem pySplit_pyJoin {sep : Char} {toks : List (List Char)}
    (h : ∀ t ∈ toks, sep ∉ t) (hne : toks ≠ []) :
    pySplit sep (pyJoin sep toks) = toks :=
  List.splitOn_intercalate toks sep h hne

theorem lineToks_mem {l t : List Char} (ht : t ∈ lineToks l) :
    t ≠ [] ∧ pyStrip t = t ∧ ' ' ∉ t := by
  unfold lineToks at ht
  obtain ⟨hmap, hb⟩ := List.mem_filter.mp ht
  obtain ⟨p, hp, hpt⟩ := List.mem_map.mp hmap
  refine ⟨by simpa using hb, ?_, ?_⟩
  · rw [← hpt]; exact pyStrip_idem p
  · intro hsp
    rw [← hpt] at hsp
    exact sep_not_mem_of_mem_pySplit hp (mem_of_mem_pyStrip hsp)

theorem mem_of_mem_lineToks {l t : List Char} (ht : t ∈ lineToks l)
    {c : Char} (hc : c ∈ t) : c ∈ l := by
  unfold lineToks at ht
  obtain ⟨hmap, _⟩ := List.mem_filter.mp ht
  obtain ⟨p, hp, hpt⟩ := List.mem_map.mp hmap
  rw [← hpt] at hc
  exact mem_of_mem_pyStrip (mem_of_mem_pySplit hp (mem_of_mem_pyStrip hc))

theorem lineToks_pyJoin {T : List (List Char)}
    (h : ∀ t ∈ T, t ≠ [] ∧ pyStrip t = t ∧ ' ' ∉ t) :
    lineToks (pyJoin ' ' T) = T := by
  cases T with
  | nil => decide
  | cons t ts =>
    unfold lineToks
    rw [pyStrip_pyJoin (List.cons_ne_nil t ts)
        (fun x hx => ⟨(h x hx).1, (h x hx).2.1⟩),
      pySplit_pyJoin (fun x hx => (h x hx).2.2) (List.cons_ne_nil t ts)]
    have hmap : List.map pyStrip (t :: ts) = t :: ts := by
      conv_rhs => rw [show t :: ts = List.map id (t :: ts) from (List.map_id (t :: ts)).symm]
      exact List.map_congr_left (fun x hx => (h x hx).2.1)
    rw [hmap]
    exact List.filter_eq_self.mpr (fun x hx => by simp [(h x hx).1])

theorem normalizeLine_idem (l : List Char) :
    normalizeLine (normalizeLine l) = normalizeLine l := by
  show pyJoin ' ' (lineToks (pyJoin ' ' (lineToks l))) = pyJoin ' ' (lineToks l)
  rw [lineToks_pyJoin (fun t ht => lineToks_mem ht)]

theorem newline_not_mem_normalizeLine {raw : List Char} (h : '\n' ∉ raw) :
    '\n' ∉ normalizeLine raw := by
  intro hc
  rcases mem_pyJoin hc with h' | ⟨t, ht, hct⟩
  · cases h'
  · exact h (mem_of_mem_lineToks ht hct)

theorem pySplit_ne_nil (sep : Char) (l : List Char) : pySplit sep l ≠ [] := by
  unfold pySplit List.splitOn
  exact List.splitOnP_ne_nil _ l

theorem pySplit_renormText (text : List Char) :
    pySplit '\n' (renormText text) = (pySplit '\n' text).map normalizeLine := by
  unfold renormText
  apply pySplit_pyJoin
  · intro t ht
    obtain ⟨raw, hraw, hrt⟩ := List.mem_map.mp ht
    rw [← hrt]
    exact newline_not_mem_normalizeLine (sep_not_mem_of_mem_pySplit hraw)
  · simp [pySplit_ne_nil '\n' text]

/-! ## Lemmas: the parser -/

theorem hostInfo_size_pos {hi : HostInfo} (h : hi.host.isSome = true) : 0 < hi.size := by
  unfold HostInfo.size
  rw [h]
  simp only [if_true]
  omega

theorem hostInfo_empty_size : HostInfo.empty.size = 0 := rfl

theorem hostnameStep_host (hi : HostInfo) (line : List Char) :
    (hostnameStep hi line).host = hi.host := by
  unfold hostnameStep; split <;> rfl

theorem userStep_host (hi : HostInfo) (line : List Char) :
    (userStep hi line).host = hi.host := by
  unfold userStep; split <;> rfl

theorem sshkeyStep_host (hi : HostInfo) (line : List Char) :
    (sshkeyStep hi line).host = hi.host := by
  unfold sshkeyStep; split <;> rfl

theorem portStep_host {hi hi2 : HostInfo} {line : List Char}
    (h : portStep hi line = .ok hi2) : hi2.host = hi.host := by
  unfold portStep at h
  split at h
  · rcases hpi : pyInt? (afterFirstSpace line) with _ | n <;> rw [hpi] at h
    · cases h
    · cases h; rfl
  · cases h; rfl

theorem processLine_empty {r : List HostInfo} {h : HostInfo} {raw : List Char}
    (hE : (normalizeLine raw).isEmpty = true) :
    processLine r h raw = .ok (r, h) := by
  unfold processLine
  simp [hE]

theorem processLine_notEmpty {r : List HostInfo} {h : HostInfo} {raw : List Char}
    (hE : (normalizeLine raw).isEmpty = false) :
    processLine r h raw =
      match portStep (userStep (hostnameStep (hostStep r h (normalizeLine raw)).2
          (normalizeLine raw)) (normalizeLine raw)) (normalizeLine raw) with
      | .ok hi2 => .ok ((hostStep r h (normalizeLine raw)).1, sshkeyStep hi2 (normalizeLine raw))
      | .error e => .error e := by
  unfold processLine
  simp [hE]

theorem processLine_norm (r : List HostInfo) (h : HostInfo) (raw : List Char) :
    processLine r h (normalizeLine raw) = processLine r h raw := by
  unfold processLine
  rw [normalizeLine_idem]

theorem not_prefix_of_false {p l : List Char} (h : p.isPrefixOf l = false) : ¬(p <+: l) := by
  rw [← List.isPrefixOf_iff_prefix]
  simp [h]

theorem processLine_skip {r : List HostInfo} {h : HostInfo} {raw : List Char}
    (h1 : hostDir.isPrefixOf (normalizeLine raw) = false)
    (h2 : hostnameDir.isPrefixOf (normalizeLine raw) = false)
    (h3 : userDir.isPrefixOf (normalizeLine raw) = false)
    (h4 : portDir.isPrefixOf (normalizeLine raw) = false)
    (h5 : identityFileDir.isPrefixOf (normalizeLine raw) = false) :
    processLine r h raw = .ok (r, h) := by
  by_cases hE : (normalizeLine raw).isEmpty = true
  · exact processLine_empty hE
  · rw [processLine_notEmpty (Bool.eq_false_iff.mpr hE)]
    unfold hostStep hostnameStep userStep portStep sshkeyStep
    simp [not_prefix_of_false h1, not_prefix_of_false h2, not_prefix_of_false h3,
      not_prefix_of_false h4, not_prefix_of_false h5]

theorem processLine_badPort {r : List HostInfo} {h : HostInfo} {raw : List Char}
    (h4 : portDir.isPrefixOf (normalizeLine raw) = true)
    (hbad : pyInt? (afterFirstSpace (normalizeLine raw)) = none) :
    processLine r h raw = .error (afterFirstSpace (normalizeLine raw)) := by
  have hne : (normalizeLine raw).isEmpty = false := by
    cases hn : normalizeLine raw with
    | nil => rw [hn] at h4; exact absurd h4 (by decide)
    | cons c cs => rfl
  rw [processLine_notEmpty hne]
  unfold portStep
  simp [List.isPrefixOf_iff_prefix.mp h4, hbad]

theorem hostStep_flush_eq (r : List HostInfo) (h : HostInfo) :
    (if h.size > 0 then r ++ [h] else r) = finishParse (r, h) := rfl

theorem flush_all_host {r : List HostInfo} {h : HostInfo}
    (h1 : (r.drop 1).all (fun x => x.host.isSome) = true)
    (h2 : r ≠ [] → h.host.isSome = true) :
    ((finishParse (r, h)).drop 1).all (fun x => x.host.isSome) = true := by
  unfold finishParse
  by_cases hs : h.size > 0
  · simp only [if_pos hs]
    cases r with
    | nil => simp
    | cons a as =>
      have hh := h2 (List.cons_ne_nil a as)
      simp only [List.cons_append, List.drop_succ_cons, List.drop_zero] at h1 ⊢
      rw [List.all_append]
      simp [h1, hh]
  · simp only [if_neg hs]
    exact h1

theorem processLine_inv {r : List HostInfo} {h : HostInfo} {raw : List Char}
    {r' : List HostInfo} {h' : HostInfo}
    (hinv1 : (r.drop 1).all (fun x => x.host.isSome) = true)
    (hinv2 : r ≠ [] → h.host.isSome = true)
    (hp : processLine r h raw = .ok (r', h')) :
    ((r'.drop 1).all (fun x => x.host.isSome) = true) ∧ (r' ≠ [] → h'.host.isSome = true) := by
  by_cases hE : (normalizeLine raw).isEmpty = true
  · rw [processLine_empty hE] at hp
    simp only [Except.ok.injEq, Prod.mk.injEq] at hp
    obtain ⟨rfl, rfl⟩ := hp
    exact ⟨hinv1, hinv2⟩
  · rw [processLine_notEmpty (Bool.eq_false_iff.mpr hE)] at hp
    rcases hps : portStep (userStep (hostnameStep (hostStep r h (normalizeLine raw)).2
        (normalizeLine raw)) (normalizeLine raw)) (normalizeLine raw) with e | hi2 <;>
      rw [hps] at hp
    · cases hp
    · simp only [Except.ok.injEq, Prod.mk.injEq] at hp
      obtain ⟨rfl, rfl⟩ := hp
      have hh2 : (sshkeyStep hi2 (normalizeLine raw)).host =
          (hostStep r h (normalizeLine raw)).2.host := by
        rw [sshkeyStep_host, portStep_host hps, userStep_host, hostnameStep_host]
      by_cases hH : hostDir.isPrefixOf (normalizeLine raw) = true
      · have hsplit : hostStep r h (normalizeLine raw) =
            (finishParse (r, h),
              { HostInfo.empty with host := some (afterFirstSpace (normalizeLine raw)) }) := by
          unfold hostStep
          rw [hostStep_flush_eq]
          simp [List.isPrefixOf_iff_prefix.mp hH]
        rw [hsplit] at hh2 ⊢
        refine ⟨flush_all_host hinv1 hinv2, fun _ => ?_⟩
        rw [hh2]
        rfl
      · have hsplit : hostStep r h (normalizeLine raw) = (r, h) := by
          unfold hostStep
          simp [hH]
        rw [hsplit] at hh2 ⊢
        refine ⟨hinv1, fun hne => ?_⟩
        rw [hh2]
        exact hinv2 hne

theorem runLines_inv :
    ∀ (ls : List (List Char)) (r : List HostInfo) (h : HostInfo)
      {r' : List HostInfo} {h' : HostInfo},
      (r.drop 1).all (fun x => x.host.isSome) = true →
      (r ≠ [] → h.host.isSome = true) →
      runLines ls r h = .ok (r', h') →
      ((r'.drop 1).all (fun x => x.host.isSome) = true) ∧ (r' ≠ [] → h'.host.isSome = true) := by
  intro ls
  induction ls with
  | nil =>
    intro r h r' h' h1 h2 hr
    simp only [runLines, Except.ok.injEq, Prod.mk.injEq] at hr
    obtain ⟨rfl, rfl⟩ := hr
    exact ⟨h1, h2⟩
  | cons raw rest ih =>
    intro r h r' h' h1 h2 hr
    rcases hp : processLine r h raw with e | ⟨r1, h1'⟩ <;>
      simp only [runLines, hp] at hr
    · cases hr
    · obtain ⟨g1, g2⟩ := processLine_inv h1 h2 hp
      exact ih r1 h1' g1 g2 hr

theorem runLines_append (xs ys : List (List Char)) (r : List HostInfo) (h : HostInfo) :
    runLines (xs ++ ys) r h =
      match runLines xs r h with
      | .ok (r', h') => runLines ys r' h'
      | .error e => .error e := by
  induction xs generalizing r h with
  | nil => rfl
  | cons x xs ih =>
    rcases hp : processLine r h x with e | ⟨r1, h1⟩ <;>
      simp only [List.cons_append, runLines, hp]
    exact ih r1 h1

theorem runLines_skip :
    ∀ (ls : List (List Char)),
      (∀ raw ∈ ls, ∀ p ∈ directives, p.isPrefixOf (normalizeLine raw) = false) →
      ∀ (r : List HostInfo) (hi : HostInfo), runLines ls r hi = .ok (r, hi) := by
  intro ls
  induction ls with
  | nil => intro _ r hi; rfl
  | cons x xs ih =>
    intro h r hi
    have hx := h x (List.mem_cons_self x xs)
    have hskip : processLine r hi x = .ok (r, hi) := processLine_skip
      (hx hostDir (by simp [directives])) (hx hostnameDir (by simp [directives]))
      (hx userDir (by simp [directives])) (hx portDir (by simp [directives]))
      (hx identityFileDir (by simp [directives]))
    simp only [runLines, hskip]
    exact ih (fun raw hraw => h raw (List.mem_cons_of_mem x hraw)) r hi

theorem runLines_error_of_badPort :
    ∀ (ls : List (List Char)) (r : List HostInfo) (h : HostInfo),
      (∃ raw ∈ ls, portDir.isPrefixOf (normalizeLine raw) = true ∧
        pyInt? (afterFirstSpace (normalizeLine raw)) = none) →
      exceptIsError (runLines ls r h) = true := by
  intro ls
  induction ls with
  | nil =>
    rintro r h ⟨raw, hmem, _⟩
    cases hmem
  | cons x xs ih =>
    rintro r h ⟨raw, hmem, hbad1, hbad2⟩
    rcases List.mem_cons.mp hmem with rfl | hmem'
    · simp only [runLines, processLine_badPort hbad1 hbad2]
      rfl
    · rcases hp : processLine r h x with e | ⟨r1, h1⟩ <;> simp only [runLines, hp]
      · rfl
      · exact ih r1 h1 ⟨raw, hmem', hbad1, hbad2⟩

theorem runLines_map_norm :
    ∀ (ls : List (List Char)) (r : List HostInfo) (h : HostInfo),
      runLines (ls.map normalizeLine) r h = runLines ls r h := by
  intro ls
  induction ls with
  | nil => intro r h; rfl
  | cons x xs ih =>
    intro r h
    simp only [List.map_cons, runLines, processLine_norm]
    rcases hp : processLine r h x with e | ⟨r1, h1⟩ <;> simp only [hp]
    exact ih r1 h1

theorem parse_inventory_tail_host {text : List Char} {rs : List HostInfo}
    (hp : parse_inventory text = .ok rs) :
    (rs.drop 1).all (fun x => x.host.isSome) = true := by
  unfold parse_inventory runParse at hp
  rcases hr : runLines (pySplit '\n' text) [] HostInfo.empty with e | ⟨r', h'⟩ <;>
    rw [hr] at hp
  · cases hp
  · obtain ⟨g1, g2⟩ := runLines_inv (pySplit '\n' text) [] HostInfo.empty rfl
      (fun hc => absurd rfl hc) hr
    have hfin : finishParse (r', h') = rs := Except.ok.inj hp
    rw [← hfin]
    exact flush_all_host g1 g2

theorem parse_inventory_skip_all {text : List Char}
    (h : ∀ raw ∈ pySplit '\n' text, ∀ p ∈ directives,
      p.isPrefixOf (normalizeLine raw) = false) :
    parse_inventory text = .ok [] := by
  unfold parse_inventory runParse
  rw [runLines_skip (pySplit '\n' text) h [] HostInfo.empty]
  rfl

theorem parse_inventory_error_of_badPort {text : List Char}
    (h : ∃ raw ∈ pySplit '\n' text, portDir.isPrefixOf (normalizeLine raw) = true ∧
      pyInt? (afterFirstSpace (normalizeLine raw)) = none) :
    exceptIsError (parse_inventory text) = true := by
  have herr := runLines_error_of_badPort (pySplit '\n' text) [] HostInfo.empty h
  unfold parse_inventory runParse
  rcases hr : runLines (pySplit '\n' text) [] HostInfo.empty with e | ⟨r', h'⟩ <;>
    rw [hr] at herr
  · rfl
  · cases herr

theorem parse_inventory_renorm (text : List Char) :
    parse_inventory (renormText text) = parse_inventory text := by
  unfold parse_inventory
  rw [pySplit_renormText]
  unfold runParse
  rw [runLines_map_norm]

/-! ## Lemmas: well-formed host blocks -/

theorem isPrefixOf_append_self (p v : List Char) : p.isPrefixOf (p ++ v) = true :=
  List.isPrefixOf_iff_prefix.mpr ⟨v, rfl⟩

theorem not_prefixOf_of_mismatch (p q : List Char) (hpq : ∀ t v : List Char, p ++ t ≠ q ++ v) :
    ∀ v, p.isPrefixOf (q ++ v) = false := by
  intro v
  rw [Bool.eq_false_iff]
  intro hT
  obtain ⟨t, ht⟩ := List.isPrefixOf_iff_prefix.mp hT
  exact hpq t v ht

theorem normalizeLine_two_tokens {a b : List Char} (ha : a ≠ [])
    (hac : ∀ c ∈ a, isPySpace c = false) (hb : b ≠ [])
    (hbc : ∀ c ∈ b, isPySpace c = false) :
    normalizeLine (a ++ ' ' :: b) = a ++ ' ' :: b := by
  have h2 : a ++ ' ' :: b = pyJoin ' ' [a, b] := by
    rw [pyJoin_cons₂, pyJoin_single]
  rw [h2]
  show pyJoin ' ' (lineToks (pyJoin ' ' [a, b])) = pyJoin ' ' [a, b]
  rw [lineToks_pyJoin]
  intro t ht
  have hsp : isPySpace ' ' = true := by decide
  rcases List.mem_cons.mp ht with rfl | ht'
  · exact ⟨ha, pyStrip_of_clean hac, fun hs => by rw [hac ' ' hs] at hsp; cases hsp⟩
  · rcases List.mem_singleton.mp ht' with rfl
    exact ⟨hb, pyStrip_of_clean hbc, fun hs => by rw [hbc ' ' hs] at hsp; cases hsp⟩

theorem cleanTok_no_newline {v : List Char} (hv : cleanTok v) : '\n' ∉ v := by
  intro hmem
  have := hv.2 '\n' hmem
  simp [isPySpace] at this

theorem normalizeLine_hostLine {v : List Char} (hv : cleanTok v) :
    normalizeLine (hostDir ++ v) = hostDir ++ v := by
  have h : hostDir ++ v = "Host".toList ++ ' ' :: v := rfl
  rw [h]
  exact normalizeLine_two_tokens (by decide) (by decide) hv.1 hv.2

theorem normalizeLine_hostnameLine {v : List Char} (hv : cleanTok v) :
    normalizeLine (hostnameDir ++ v) = hostnameDir ++ v := by
  have h : hostnameDir ++ v = "HostName".toList ++ ' ' :: v := rfl
  rw [h]
  exact normalizeLine_two_tokens (by decide) (by decide) hv.1 hv.2

theorem normalizeLine_userLine {v : List Char} (hv : cleanTok v) :
    normalizeLine (userDir ++ v) = userDir ++ v := by
  have h : userDir ++ v = "User".toList ++ ' ' :: v := rfl
  rw [h]
  exact normalizeLine_two_tokens (by decide) (by decide) hv.1 hv.2

theorem normalizeLine_portLine {v : List Char} (hv : cleanTok v) :
    normalizeLine (portDir ++ v) = portDir ++ v := by
  have h : portDir ++ v = "Port".toList ++ ' ' :: v := rfl
  rw [h]
  exact normalizeLine_two_tokens (by decide) (by decide) hv.1 hv.2

theorem normalizeLine_identityFileLine {v : List Char} (hv : cleanTok v) :
    normalizeLine (identityFileDir ++ v) = identityFileDir ++ v := by
  have h : identityFileDir ++ v = "IdentityFile".toList ++ ' ' :: v := rfl
  rw [h]
  exact normalizeLine_two_tokens (by decide) (by decide) hv.1 hv.2

theorem afterFirstSpace_hostDir (v : List Char) : afterFirstSpace (hostDir ++ v) = v := rfl

theorem afterFirstSpace_hostnameDir (v : List Char) :
    afterFirstSpace (hostnameDir ++ v) = v := rfl

theorem afterFirstSpace_userDir (v : List Char) : afterFirstSpace (userDir ++ v) = v := rfl

theorem afterFirstSpace_portDir (v : List Char) : afterFirstSpace (portDir ++ v) = v := rfl

theorem afterFirstSpace_identityFileDir (v : List Char) :
    afterFirstSpace (identityFileDir ++ v) = v := rfl

theorem dirLine_not_isEmpty {d v : List Char} (hd : d ≠ []) : (d ++ v).isEmpty = false := by
  cases d with
  | nil => exact absurd rfl hd
  | cons c cs => rfl

theorem processLine_hostLine {r : List HostInfo} {h : HostInfo} {name : List Char}
    (hn : cleanTok name) :
    processLine r h (hostDir ++ name) =
      .ok (finishParse (r, h), { HostInfo.empty with host := some name }) := by
  have hnorm := normalizeLine_hostLine hn
  have hne : (normalizeLine (hostDir ++ name)).isEmpty = false := by
    rw [hnorm]; exact dirLine_not_isEmpty (by decide)
  rw [processLine_notEmpty hne, hnorm]
  have hHS : hostStep r h (hostDir ++ name) =
      (finishParse (r, h), { HostInfo.empty with host := some name }) := by
    unfold hostStep
    rw [hostStep_flush_eq]
    simp [isPrefixOf_append_self, afterFirstSpace_hostDir]
  have hN : ∀ hi, hostnameStep hi (hostDir ++ name) = hi := by
    intro hi; unfold hostnameStep
    simp [not_prefix_of_false (not_prefixOf_of_mismatch hostnameDir hostDir
      (fun t v => by simp [hostnameDir, hostDir]) name)]
  have hU : ∀ hi, userStep hi (hostDir ++ name) = hi := by
    intro hi; unfold userStep
    simp [not_prefix_of_false (not_prefixOf_of_mismatch userDir hostDir
      (fun t v => by simp [userDir, hostDir]) name)]
  have hP : ∀ hi, portStep hi (hostDir ++ name) = .ok hi := by
    intro hi; unfold portStep
    simp [not_prefix_of_false (not_prefixOf_of_mismatch portDir hostDir
      (fun t v => by simp [portDir, hostDir]) name)]
  have hK : ∀ hi, sshkeyStep hi (hostDir ++ name) = hi := by
    intro hi; unfold sshkeyStep
    simp [not_prefix_of_false (not_prefixOf_of_mismatch identityFileDir hostDir
      (fun t v => by simp [identityFileDir, hostDir]) name)]
  simp only [hHS, hN, hU, hP, hK]

set_option maxHeartbeats 1000000 in
theorem processLine_fieldLine {r : List HostInfo} {h : HostInfo} {f : Field}
    (hf : wfField f) :
    processLine r h (fieldLine f) = .ok (r, applyField h f) := by
  cases f with
  | hostname v =>
    have hnorm := normalizeLine_hostnameLine hf
    have hne : (normalizeLine (fieldLine (Field.hostname v))).isEmpty = false := by
      show (normalizeLine (hostnameDir ++ v)).isEmpty = false
      rw [hnorm]; exact dirLine_not_isEmpty (by decide)
    rw [processLine_notEmpty hne,
      show fieldLine (Field.hostname v) = hostnameDir ++ v from rfl, hnorm]
    have hHS : hostStep r h (hostnameDir ++ v) = (r, h) := by
      unfold hostStep
      simp [not_prefix_of_false (not_prefixOf_of_mismatch hostDir hostnameDir
        (fun t w => by simp [hostDir, hostnameDir]) v)]
    have hN : hostnameStep h (hostnameDir ++ v) =
        { h with hostname := some v } := by
      unfold hostnameStep
      simp [isPrefixOf_append_self, afterFirstSpace_hostnameDir]
    have hU : ∀ hi, userStep hi (hostnameDir ++ v) = hi := by
      intro hi; unfold userStep
      simp [not_prefix_of_false (not_prefixOf_of_mismatch userDir hostnameDir
        (fun t w => by simp [userDir, hostnameDir]) v)]
    have hP : ∀ hi, portStep hi (hostnameDir ++ v) = .ok hi := by
      intro hi; unfold portStep
      simp [not_prefix_of_false (not_prefixOf_of_mismatch portDir hostnameDir
        (fun t w => by simp [portDir, hostnameDir]) v)]
    have hK : ∀ hi, sshkeyStep hi (hostnameDir ++ v) = hi := by
      intro hi; unfold sshkeyStep
      simp [not_prefix_of_false (not_prefixOf_of_mismatch identityFileDir hostnameDir
        (fun t w => by simp [identityFileDir, hostnameDir]) v)]
    simp only [hHS, hN, hU, hP, hK, applyField]
  | user v =>
    have hnorm := normalizeLine_userLine hf
    have hne : (normalizeLine (fieldLine (Field.user v))).isEmpty = false := by
      show (normalizeLine (userDir ++ v)).isEmpty = false
      rw [hnorm]; exact dirLine_not_isEmpty (by decide)
    rw [processLine_notEmpty hne,
      show fieldLine (Field.user v) = userDir ++ v from rfl, hnorm]
    have hHS : hostStep r h (userDir ++ v) = (r, h) := by
      unfold hostStep
      simp [not_prefix_of_false (not_prefixOf_of_mismatch hostDir userDir
        (fun t w => by simp [hostDir, userDir]) v)]
    have hN : hostnameStep h (userDir ++ v) = h := by
      unfold hostnameStep
      simp [not_prefix_of_false (not_prefixOf_of_mismatch hostnameDir userDir
        (fun t w => by simp [hostnameDir, userDir]) v)]
    have hU : userStep h (userDir ++ v) = { h with user := some v } := by
      unfold userStep
      simp [isPrefixOf_append_self, afterFirstSpace_userDir]
    have hP : ∀ hi, portStep hi (userDir ++ v) = .ok hi := by
      intro hi; unfold portStep
      simp [not_prefix_of_false (not_prefixOf_of_mismatch portDir userDir
        (fun t w => by simp [portDir, userDir]) v)]
    have hK : ∀ hi, sshkeyStep hi (userDir ++ v) = hi := by
      intro hi; unfold sshkeyStep
      simp [not_prefix_of_false (not_prefixOf_of_mismatch identityFileDir userDir
        (fun t w => by simp [identityFileDir, userDir]) v)]
    simp only [hHS, hN, hU, hP, hK, applyField]
  | port v =>
    have hnorm := normalizeLine_portLine hf.1
    have hne : (normalizeLine (fieldLine (Field.port v))).isEmpty = false := by
      show (normalizeLine (portDir ++ v)).isEmpty = false
      rw [hnorm]; exact dirLine_not_isEmpty (by decide)
    rw [processLine_notEmpty hne,
      show fieldLine (Field.port v) = portDir ++ v from rfl, hnorm]
    obtain ⟨n, hn⟩ := Option.isSome_iff_exists.mp hf.2
    have hHS : hostStep r h (portDir ++ v) = (r, h) := by
      unfold hostStep
      simp [not_prefix_of_false (not_prefixOf_of_mismatch hostDir portDir
        (fun t w => by simp [hostDir, portDir]) v)]
    have hN : hostnameStep h (portDir ++ v) = h := by
      unfold hostnameStep
      simp [not_prefix_of_false (not_prefixOf_of_mismatch hostnameDir portDir
        (fun t w => by simp [hostnameDir, portDir]) v)]
    have hU : userStep h (portDir ++ v) = h := by
      unfold userStep
      simp [not_prefix_of_false (not_prefixOf_of_mismatch userDir portDir
        (fun t w => by simp [userDir, portDir]) v)]
    have hP : portStep h (portDir ++ v) = .ok { h with port := some n } := by
      unfold portStep
      simp [isPrefixOf_append_self, afterFirstSpace_portDir, hn]
    have hK : ∀ hi, sshkeyStep hi (portDir ++ v) = hi := by
      intro hi; unfold sshkeyStep
      simp [not_prefix_of_false (not_prefixOf_of_mismatch identityFileDir portDir
        (fun t w => by simp [identityFileDir, portDir]) v)]
    simp only [hHS, hN, hU, hP, hK, applyField, hn]
  | identityFile v =>
    have hnorm := normalizeLine_identityFileLine hf
    have hne : (normalizeLine (fieldLine (Field.identityFile v))).isEmpty = false := by
      show (normalizeLine (identityFileDir ++ v)).isEmpty = false
      rw [hnorm]; exact dirLine_not_isEmpty (by decide)
    rw [processLine_notEmpty hne,
      show fieldLine (Field.identityFile v) = identityFileDir ++ v from rfl, hnorm]
    have hHS : hostStep r h (identityFileDir ++ v) = (r, h) := by
      unfold hostStep
      simp [not_prefix_of_false (not_prefixOf_of_mismatch hostDir identityFileDir
        (fun t w => by simp [hostDir, identityFileDir]) v)]
    have hN : hostnameStep h (identityFileDir ++ v) = h := by
      unfold hostnameStep
      simp [not_prefix_of_false (not_prefixOf_of_mismatch hostnameDir identityFileDir
        (fun t w => by simp [hostnameDir, identityFileDir]) v)]
    have hU : userStep h (identityFileDir ++ v) = h := by
      unfold userStep
      simp [not_prefix_of_false (not_prefixOf_of_mismatch userDir identityFileDir
        (fun t w => by simp [userDir, identityFileDir]) v)]
    have hP : portStep h (identityFileDir ++ v) = .ok h := by
      unfold portStep
      simp [not_prefix_of_false (not_prefixOf_of_mismatch portDir identityFileDir
        (fun t w => by simp [portDir, identityFileDir]) v)]
    have hK : sshkeyStep h (identityFileDir ++ v) = { h with sshkey := some v } := by
      unfold sshkeyStep
      simp [isPrefixOf_append_self, afterFirstSpace_identityFileDir]
    simp only [hHS, hN, hU, hP, hK, applyField]

theorem applyField_host (h : HostInfo) (f : Field) : (applyField h f).host = h.host := by
  cases f <;> rfl

theorem foldl_applyField_host (fs : List Field) :
    ∀ h : HostInfo, (fs.foldl applyField h).host = h.host := by
  induction fs with
  | nil => intro h; rfl
  | cons f fs ih =>
    intro h
    rw [List.foldl_cons, ih (applyField h f), applyField_host]

theorem recOf_host (b : Block) : (recOf b).host = some b.name := by
  unfold recOf
  rw [foldl_applyField_host]

theorem runLines_fieldLines {fs : List Field} (hw : ∀ f ∈ fs, wfField f) :
    ∀ (r : List HostInfo) (h : HostInfo),
      runLines (fs.map fieldLine) r h = .ok (r, fs.foldl applyField h) := by
  induction fs with
  | nil => intro r h; rfl
  | cons f fs ih =>
    intro r h
    simp only [List.map_cons, runLines,
      processLine_fieldLine (hw f (List.mem_cons_self f fs)), List.foldl_cons]
    exact ih (fun g hg => hw g (List.mem_cons_of_mem f hg)) r (applyField h f)

theorem runLines_blockLines {b : Block} (hw : wfBlock b) (r : List HostInfo) (h : HostInfo) :
    runLines (blockLines b) r h = .ok (finishParse (r, h), recOf b) := by
  show runLines ((hostDir ++ b.name) :: b.fields.map fieldLine) r h = _
  simp only [runLines, processLine_hostLine hw.1]
  exact runLines_fieldLines hw.2 (finishParse (r, h)) _

theorem finishParse_of_host {r : List HostInfo} {h : HostInfo}
    (hh : h.host.isSome = true) : finishParse (r, h) = r ++ [h] := by
  show (if h.size > 0 then r ++ [h] else r) = r ++ [h]
  rw [if_pos (hostInfo_size_pos hh)]

theorem runParse_blocks :
    ∀ (bs : List Block), (∀ b ∈ bs, wfBlock b) →
      ∀ (r : List HostInfo) (h : HostInfo), h.host.isSome = true →
      runParse (linesOfBlocks bs) r h = .ok (r ++ h :: bs.map recOf) := by
  intro bs
  induction bs with
  | nil =>
    intro _ r h hh
    show runParse [] r h = _
    unfold runParse
    simp only [runLines, finishParse_of_host hh, List.map_nil]
  | cons b bs ih =>
    intro hw r h hh
    have hhost : h.size > 0 := hostInfo_size_pos hh
    show runParse (blockLines b ++ linesOfBlocks bs) r h = _
    unfold runParse
    rw [runLines_append, runLines_blockLines (hw b (List.mem_cons_self b bs)) r h]
    have hrec : (recOf b).host.isSome = true := by rw [recOf_host]; rfl
    show runParse (linesOfBlocks bs) (finishParse (r, h)) (recOf b) = _
    rw [ih (fun x hx => hw x (List.mem_cons_of_mem b hx)) (finishParse (r, h)) (recOf b) hrec,
      finishParse_of_host hh]
    simp

theorem linesOfBlocks_no_newline {bs : List Block} (hw : ∀ b ∈ bs, wfBlock b) :
    ∀ l ∈ linesOfBlocks bs, '\n' ∉ l := by
  induction bs with
  | nil => intro l hl; cases hl
  | cons b bs ih =>
    intro l hl
    rcases List.mem_append.mp hl with hb | hrest
    · have hwb := hw b (List.mem_cons_self b bs)
      rcases List.mem_cons.mp hb with rfl | hfield
      · intro hmem
        rcases List.mem_append.mp hmem with hd | hv
        · exact absurd hd (by decide)
        · exact cleanTok_no_newline hwb.1 hv
      · obtain ⟨f, hf, hfl⟩ := List.mem_map.mp hfield
        have hwf := hwb.2 f hf
        intro hmem
        rw [← hfl] at hmem
        cases f with
        | hostname v =>
          rcases List.mem_append.mp hmem with hd | hv
          · exact absurd hd (by decide)
          · exact cleanTok_no_newline hwf hv
        | user v =>
          rcases List.mem_append.mp hmem with hd | hv
          · exact absurd hd (by decide)
          · exact cleanTok_no_newline hwf hv
        | port v =>
          rcases List.mem_append.mp hmem with hd | hv
          · exact absurd hd (by decide)
          · exact cleanTok_no_newline hwf.1 hv
        | identityFile v =>
          rcases List.mem_append.mp hmem with hd | hv
          · exact absurd hd (by decide)
          · exact cleanTok_no_newline hwf hv
    · exact ih (fun x hx => hw x (List.mem_cons_of_mem b hx)) l hrest

theorem parse_inventory_blocks {bs : List Block} (hw : ∀ b ∈ bs, wfBlock b) :
    parse_inventory (renderBlocks bs) = .ok (bs.map recOf) := by
  cases bs with
  | nil => rfl
  | cons b bs =>
    have hwb := hw b (List.mem_cons_self b bs)
    unfold parse_inventory renderBlocks
    rw [pySplit_pyJoin (fun l hl c => linesOfBlocks_no_newline hw l hl c) ?hne]
    case hne =>
      show blockLines b ++ linesOfBlocks bs ≠ []
      show (hostDir ++ b.name) :: (b.fields.map fieldLine ++ linesOfBlocks bs) ≠ []
      exact List.cons_ne_nil _ _
    show runParse (blockLines b ++ linesOfBlocks bs) [] HostInfo.empty = _
    unfold runParse
    rw [runLines_append, runLines_blockLines hwb [] HostInfo.empty]
    have hfin : finishParse ([], HostInfo.empty) = [] := rfl
    rw [hfin]
    have hrec : (recOf b).host.isSome = true := by rw [recOf_host]; rfl
    show runParse (linesOfBlocks bs) [] (recOf b) = _
    rw [runParse_blocks bs (fun x hx => hw x (List.mem_cons_of_mem b hx)) [] (recOf b) hrec]
    simp

/-! ## Lemmas: populate -/

theorem populateRecord_missing {hi : HostInfo}
    (h : hi.host = none ∨ hi.hostname = none ∨ hi.user = none ∨ hi.port = none ∨
      hi.sshkey = none) :
    (populateRecord hi).2.isSome = true := by
  rcases hi with ⟨_ | x1, _ | x2, _ | x3, _ | x4, _ | x5⟩ <;>
    simp [populateRecord] at h ⊢

theorem populate_missing :
    ∀ (rs : List HostInfo),
      (∃ hi ∈ rs, hi.host = none ∨ hi.hostname = none ∨ hi.user = none ∨
        hi.port = none ∨ hi.sshkey = none) →
      (populate rs).2.isSome = true := by
  intro rs
  induction rs with
  | nil =>
    rintro ⟨hi, hmem, _⟩
    cases hmem
  | cons x xs ih =>
    rintro ⟨hi, hmem, hbad⟩
    rcases hpr : populateRecord x with ⟨ops, err⟩
    cases err with
    | some e => simp [populate, hpr]
    | none =>
      rcases List.mem_cons.mp hmem with rfl | hmem'
      · have := populateRecord_missing hbad
        rw [hpr] at this
        cases this
      · have hxs := ih ⟨hi, hmem', hbad⟩
        rcases hps : populate xs with ⟨ops2, rr⟩
        rw [hps] at hxs
        simp only [populate, hpr, hps]
        exact hxs

/-! ## Claim theorems -/

/-- C1, counterexample: the claim says that any text with zero lines whose
normalized form starts with `Host ` parses to the empty sequence, even in
the presence of other recognized lines.  The text `"User vagrant"` has no
`Host ` line, yet `parse_inventory` returns a nonempty record list (the
end-of-input flush on source lines 91-93 emits the accumulator whenever it
is nonempty, whether or not a `Host ` line was ever seen). -/
theorem claim_C1_cex :
    (∀ raw ∈ pySplit '\n' "User vagrant".toList,
      hostDir.isPrefixOf (normalizeLine raw) = false) ∧
    parse_inventory "User vagrant".toList ≠ .ok [] := by
  constructor
  · decide
  · decide

/-- C1, amended: for every input text containing zero lines whose
normalized form starts with any of the five recognized directives
(`Host `, `HostName `, `User `, `Port `, `IdentityFile `),
`parse_inventory` returns an empty sequence. -/
theorem claim_C1 (text : List Char)
    (h : ∀ raw ∈ pySplit '\n' text, ∀ p ∈ directives,
      p.isPrefixOf (normalizeLine raw) = false) :
    parse_inventory text = .ok [] :=
  parse_inventory_skip_all h

/-- C1, witness: a concrete text with no recognized directive lines
parses to the empty sequence. -/
theorem claim_C1_wit :
    (∀ raw ∈ pySplit '\n' "# comment\n\n  foo bar ".toList, ∀ p ∈ directives,
      p.isPrefixOf (normalizeLine raw) = false) ∧
    parse_inventory "# comment\n\n  foo bar ".toList = .ok [] :=
  ⟨by decide, claim_C1 "# comment\n\n  foo bar ".toList (by decide)⟩

/-- C2, counterexample: the claim says every emitted record has its `host`
field set.  Parsing `"User vagrant"` emits a record whose `host` field is
absent: field lines seen before the first `Host ` line accumulate into a
record that the end-of-input flush emits without a `host`. -/
theorem claim_C2_cex :
    ∃ rs, parse_inventory "User vagrant".toList = .ok rs ∧ ∃ r ∈ rs, r.host = none :=
  ⟨[⟨none, none, some "vagrant".toList, none, none⟩], by decide,
    ⟨none, none, some "vagrant".toList, none, none⟩, by decide, rfl⟩

/-- C2, amended: every record `parse_inventory` emits, except possibly the
first, has its `host` field set (the first record can lack `host` exactly
when recognized field lines precede the first `Host ` line; after a
`Host ` line has seeded the accumulator, `host` is never removed). -/
theorem claim_C2 (text : List Char) (rs : List HostInfo)
    (h : parse_inventory text = .ok rs) :
    (rs.drop 1).all (fun r => r.host.isSome) = true :=
  parse_inventory_tail_host h

/-- C2, witness: a two-block text parses to two records and every record
after the first carries a `host`. -/
theorem claim_C2_wit :
    parse_inventory "Host a\nHost b".toList =
      .ok [⟨some "a".toList, none, none, none, none⟩,
        ⟨some "b".toList, none, none, none, none⟩] ∧
    (([⟨some "a".toList, none, none, none, none⟩,
      ⟨some "b".toList, none, none, none, none⟩] : List HostInfo).drop 1).all
        (fun r => r.host.isSome) = true :=
  ⟨by decide, claim_C2 "Host a\nHost b".toList _ (by decide)⟩

/-- C3: a text of `N` well-formed `Host` blocks parses to exactly `N`
records, in block order, and the i-th record's `host` field is the value
following `Host ` in the i-th block. -/
theorem claim_C3 (bs : List Block) (hw : ∀ b ∈ bs, wfBlock b) :
    ∃ rs, parse_inventory (renderBlocks bs) = .ok rs ∧ rs.length = bs.length ∧
      rs.map (fun r => r.host) = bs.map (fun b => some b.name) := by
  refine ⟨bs.map recOf, parse_inventory_blocks hw, by simp, ?_⟩
  rw [List.map_map]
  exact List.map_congr_left (fun b _ => recOf_host b)

/-- C3, witness: two concrete well-formed blocks parse to two records
whose hosts are the two block names, in order. -/
theorem claim_C3_wit :
    (∀ b ∈ exampleBlocks, wfBlock b) ∧
    ∃ rs, parse_inventory (renderBlocks exampleBlocks) = .ok rs ∧
      rs.length = exampleBlocks.length ∧
      rs.map (fun r => r.host) = exampleBlocks.map (fun b => some b.name) :=
  ⟨by decide, claim_C3 exampleBlocks (by decide)⟩

/-- C4: any input text containing a `Port ` line whose value `int`
rejects makes `parse_inventory` fail with the `ValueError`, returning no
records. -/
theorem claim_C4 (text : List Char)
    (h : ∃ raw ∈ pySplit '\n' text, portDir.isPrefixOf (normalizeLine raw) = true ∧
      pyInt? (afterFirstSpace (normalizeLine raw)) = none) :
    exceptIsError (parse_inventory text) = true :=
  parse_inventory_error_of_badPort h

/-- C4, witness: a concrete text with a non-numeric `Port` value makes
the parse fail. -/
theorem claim_C4_wit :
    (∃ raw ∈ pySplit '\n' "Host a\nPort x7".toList,
      portDir.isPrefixOf (normalizeLine raw) = true ∧
      pyInt? (afterFirstSpace (normalizeLine raw)) = none) ∧
    exceptIsError (parse_inventory "Host a\nPort x7".toList) = true :=
  ⟨by decide, claim_C4 "Host a\nPort x7".toList (by decide)⟩

/-- C5: re-separating each line's tokens by single spaces does not change
the parse (`parse_inventory (renormText text) = parse_inventory text`),
and in particular `"Host    box1"` parses like `"Host box1"`. -/
theorem claim_C5 :
    (∀ text : List Char, parse_inventory (renormText text) = parse_inventory text) ∧
    parse_inventory "Host    box1".toList = parse_inventory "Host box1".toList :=
  ⟨parse_inventory_renorm, by decide⟩

/-- C6: with the user cache option on, a fresh cache flag and a populated
cache entry, resolution performs no fresh computation (the external
process is never invoked), hands the cached records to `populate`, and
leaves the cache unwritten — for any outcome of the (never-run) fresh
computation. -/
theorem claim_C6 (v : List HostInfo) (fresh : Except (List Char) (List HostInfo)) :
    resolveAndPopulate true true (some v) fresh =
      .ok (⟨v, 0, false, some v⟩, populate v) := rfl

/-- C7: with the user cache option on, a fresh cache flag but no cache
entry, the miss is not surfaced: resolution computes fresh (one
invocation), writes the result back to the cache, and hands it to
`populate`; only a failure of the fresh computation itself propagates. -/
theorem claim_C7 :
    (∀ v : List HostInfo, resolveAndPopulate true true none (Except.ok v) =
      .ok (⟨v, 1, true, some v⟩, populate v)) ∧
    (∀ e : List Char, resolveAndPopulate true true none (Except.error e) = .error e) :=
  ⟨fun _ => rfl, fun _ => rfl⟩

/-- C8: both process-layer failures — non-zero exit and launch failure —
are wrapped into the single `AnsibleError` whose message is the fixed
header followed by the underlying cause's description; the raw
process-layer exception never escapes `invoke`. -/
theorem claim_C8 (msg : List Char) :
    invoke (RunOutcome.nonZeroExit msg) = .error (execHeader ++ msg) ∧
    invoke (RunOutcome.launchFailure msg) = .error (execHeader ++ msg) :=
  ⟨rfl, rfl⟩

/-- C9: for a record with all five fields present, `populate` registers
the host under its `host` key and sets exactly the five connection
attributes, with `ansible_host_key_checking` fixed to `False`. -/
theorem claim_C9 (h hn u : List Char) (p : Int) (k : List Char) :
    populateRecord ⟨some h, some hn, some u, some p, some k⟩ =
      ([InvOp.addHost h,
        InvOp.setVariable h "ansible_host".toList (VarValue.str hn),
        InvOp.setVariable h "ansible_user".toList (VarValue.str u),
        InvOp.setVariable h "ansible_port".toList (VarValue.int p),
        InvOp.setVariable h "ansible_host_key_checking".toList (VarValue.bool false),
        InvOp.setVariable h "ansible_ssh_private_key_file".toList (VarValue.str k)],
        none) := rfl

/-- C10: `populate` reads all five fields of every record unconditionally,
so any record sequence containing a record that misses one of them makes
population fail with a `KeyError` instead of registering the host with
the fields it has. -/
theorem claim_C10 (rs : List HostInfo)
    (h : ∃ hi ∈ rs, hi.host = none ∨ hi.hostname = none ∨ hi.user = none ∨
      hi.port = none ∨ hi.sshkey = none) :
    (populate rs).2.isSome = true :=
  populate_missing rs h

/-- C10, witness: the lenient parser emits a `Host`-only record for the
text `"Host a"`, and populating that record fails with a `KeyError`. -/
theorem claim_C10_wit :
    parse_inventory "Host a".toList =
      .ok [⟨some "a".toList, none, none, none, none⟩] ∧
    (∃ hi ∈ ([⟨some "a".toList, none, none, none, none⟩] : List HostInfo),
      hi.host = none ∨ hi.hostname = none ∨ hi.user = none ∨
      hi.port = none ∨ hi.sshkey = none) ∧
    (populate [⟨some "a".toList, none, none, none, none⟩]).2.isSome = true :=
  ⟨by decide, by decide,
    claim_C10 [⟨some "a".toList, none, none, none, none⟩] (by decide)⟩

end Vagrant
